import Mathlib

/-!
Verification of the certificate mail-merge generator (`certificados.py`).

The program is embedded shallowly:

* Python strings are Lean `String`s (lists of Unicode code points); slicing,
  `strip`, `replace` and regex substitution are modelled on `List Char`.
* Python dicts are insertion-ordered association lists `List (String × α)`;
  `dictGet?`, `dictSet`, `dictSetdefault` model `d.get`, `d[k] = v` and
  `d.setdefault`.  Python sets are duplicate-free lists built with `setAdd`.
* `unicodedata.normalize("NFKD", ·)` and `unicodedata.combining` are modelled
  by an explicit decomposition table (`nfkdTable`) and the combining block
  U+0300-U+036F; `str.upper` is modelled code-point-wise on ASCII
  (`pyUpperChar`).  This embedding agrees with `unicodedata` exactly on
  `exactRepertoire` (ASCII plus the precomposed accented letters the
  placeholder pattern admits and their decompositions); outside it, both are
  the identity, so theorems that quantify over arbitrary code points are
  stated only on that repertoire.
* The `.docx` archive handed to the placeholder extractor is modelled as the
  association list of its already-decoded XML parts (name, text).
* The Word/LibreOffice PDF converters touch the outside world; the outcome of
  each external probe is a field of `ConvEnv` and the functions
  `can_convert_pdf` / `try_docx_to_pdf` are translated over that record.
-/

namespace Certificados

/-- Lookup in an insertion-ordered Python dict: `d.get(k)`. -/
def dictGet? {α : Type} : List (String × α) → String → Option α
  | [], _ => none
  | p :: rest, k => if p.1 = k then some p.2 else dictGet? rest k

/-- Assignment into an insertion-ordered Python dict: `d[k] = v`
(overwrites in place, appends when the key is new). -/
def dictSet {α : Type} : List (String × α) → String → α → List (String × α)
  | [], k, v => [(k, v)]
  | p :: rest, k, v => if p.1 = k then (k, v) :: rest else p :: dictSet rest k v

/-- Python `d.setdefault(k, v)`: keeps an existing binding, appends otherwise. -/
def dictSetdefault {α : Type} : List (String × α) → String → α → List (String × α)
  | [], k, v => [(k, v)]
  | p :: rest, k, v => if p.1 = k then p :: rest else p :: dictSetdefault rest k v

/-- Python `set.add` on a duplicate-free list model of a set. -/
def setAdd (s : List String) (x : String) : List String :=
  if x ∈ s then s else s ++ [x]

/-- Python whitespace (`str.isspace` / regex `\s` with Unicode semantics):
ASCII whitespace, the C0 separators 0x1C-0x1F, NEL, NBSP and the Unicode
space separators. -/
def pyIsSpace (c : Char) : Bool :=
  decide (c.val = 32 ∨ (9 ≤ c.val ∧ c.val ≤ 13) ∨ (28 ≤ c.val ∧ c.val ≤ 31) ∨
    c.val = 133 ∨ c.val = 160 ∨ c.val = 0x1680 ∨
    (0x2000 ≤ c.val ∧ c.val ≤ 0x200A) ∨ c.val = 0x2028 ∨ c.val = 0x2029 ∨
    c.val = 0x202F ∨ c.val = 0x205F ∨ c.val = 0x3000)

/-- Model of `unicodedata.combining c != 0` for the combining diacritical
marks block U+0300-U+036F (the block containing every mark produced by
`nfkdTable`).  The real function is also nonzero for marks outside this
block, so the model is exact only on `exactRepertoire`. -/
def combining (c : Char) : Bool :=
  decide (0x300 ≤ c.toNat ∧ c.toNat ≤ 0x36F)

/-- NFKD decompositions for the accented Latin letters admitted by the
placeholder pattern of the program (plus `ñ`): base letter followed by the
combining mark.  Every other character decomposes to itself, which matches
real NFKD on ASCII but not on the remaining precomposed or compatibility
characters (e.g. U+00B4 decomposes to space plus U+0301); the model is
therefore exact only on `exactRepertoire`. -/
def nfkdTable : List (Char × List Char) :=
  [('\u00C1', ['A', '\u0301']), ('\u00C9', ['E', '\u0301']), ('\u00CD', ['I', '\u0301']),
   ('\u00D3', ['O', '\u0301']), ('\u00DA', ['U', '\u0301']), ('\u00D1', ['N', '\u0303']),
   ('\u00DC', ['U', '\u0308']), ('\u00E1', ['a', '\u0301']), ('\u00E9', ['e', '\u0301']),
   ('\u00ED', ['i', '\u0301']), ('\u00F3', ['o', '\u0301']), ('\u00FA', ['u', '\u0301']),
   ('\u00FC', ['u', '\u0308']), ('\u00F1', ['n', '\u0303'])]

/-- Per-character `unicodedata.normalize("NFKD", ·)` over `nfkdTable`. -/
def nfkdChar (c : Char) : List Char :=
  match nfkdTable.find? (fun p => p.1 == c) with
  | some p => p.2
  | none => [c]

/-- The character repertoire on which the embedding of `unicodedata` is
exact: ASCII plus the precomposed accented letters of the placeholder
pattern (the keys of `nfkdTable`). -/
def exactRepertoire (c : Char) : Bool :=
  decide (c.toNat ≤ 0x7F) || nfkdTable.any (fun p => p.1 == c)

/-- Uppercase table for `str.upper` on the ASCII range (the decomposition
table reduces the accented repertoire to ASCII base letters first). -/
def upperTable : List (Char × Char) :=
  [('a', 'A'), ('b', 'B'), ('c', 'C'), ('d', 'D'), ('e', 'E'),
   ('f', 'F'), ('g', 'G'), ('h', 'H'), ('i', 'I'), ('j', 'J'),
   ('k', 'K'), ('l', 'L'), ('m', 'M'), ('n', 'N'), ('o', 'O'),
   ('p', 'P'), ('q', 'Q'), ('r', 'R'), ('s', 'S'), ('t', 'T'),
   ('u', 'U'), ('v', 'V'), ('w', 'W'), ('x', 'X'), ('y', 'Y'),
   ('z', 'Z')]

/-- Code-point-wise `str.upper` over `upperTable`, identity elsewhere. -/
def pyUpperChar (c : Char) : Char :=
  ((upperTable.find? (fun p => p.1 == c)).map Prod.snd).getD c

/-- List-level body of `strip_accents_upper`: NFKD-decompose, drop the
combining marks, uppercase. -/
def stripAccentsUpperL (l : List Char) : List Char :=
  ((l.flatMap nfkdChar).filter (fun c => !combining c)).map pyUpperChar

/-- Source `strip_accents_upper`: NFKD, drop combining marks, upper. -/
def strip_accents_upper (s : String) : String :=
  ⟨stripAccentsUpperL s.data⟩

/-- Python `str.strip()`: drop whitespace from both ends. -/
def pyStripL (l : List Char) : List Char :=
  ((l.dropWhile pyIsSpace).reverse.dropWhile pyIsSpace).reverse

/-- Python `str.strip()` on strings (used for `m.strip()` in the extractor). -/
def pyStripStr (s : String) : String := ⟨pyStripL s.data⟩

/-- The `.replace("\n", " ")` step of `normalize_key`. -/
def replaceNewlines (l : List Char) : List Char :=
  l.map (fun c => if c = '\n' then ' ' else c)

/-- Worker for `re.sub(r"\s+", " ", s)`: the flag records whether the scan is
inside a whitespace run whose single replacement space was already emitted. -/
def collapseAux : Bool → List Char → List Char
  | _, [] => []
  | inWs, c :: rest =>
    if pyIsSpace c then
      (if inWs then collapseAux true rest else ' ' :: collapseAux true rest)
    else c :: collapseAux false rest

/-- Model of `re.sub(r"\s+", " ", s)`: every maximal whitespace run becomes one space. -/
def collapseSpaces (l : List Char) : List Char := collapseAux false l

/-- Source `normalize_key`: strip, replace newlines, collapse
whitespace runs, then strip accents and uppercase.  (The `s is None` branch
of the Python function is outside the string-to-string fragment modelled
here; all call sites in the claims pass strings.) -/
def normalize_key (s : String) : String :=
  ⟨stripAccentsUpperL (collapseSpaces (replaceNewlines (pyStripL s.data)))⟩

/-- The character class replaced by an underscore in `sanitize_filename`:
the reserved characters and the C0 range U+0000-U+001F. -/
def forbiddenFilenameChar (c : Char) : Bool :=
  decide (c = '<' ∨ c = '>' ∨ c = ':' ∨ c = '"' ∨ c = '/' ∨ c = '\\' ∨
    c = '|' ∨ c = '?' ∨ c = '*' ∨ c.val ≤ 0x1F)

/-- Python `str.strip(".")`: drop dots from both ends. -/
def stripDots (l : List Char) : List Char :=
  ((l.dropWhile (fun c => c == '.')).reverse.dropWhile (fun c => c == '.')).reverse

/-- Source `sanitize_filename`: replace forbidden characters by an
underscore, strip surrounding whitespace then surrounding dots, fall back to
"documento" when empty, truncate to 200 code points. -/
def sanitize_filename (s : String) : String :=
  let repl := s.data.map (fun c => if forbiddenFilenameChar c then '_' else c)
  let stripped := stripDots (pyStripL repl)
  ⟨(if stripped = [] then "documento".data else stripped).take 200⟩


/-- Character class of the group of `PLACEHOLDER_RE`:
`[A-Za-z0-9_ÁÉÍÓÚÑáéíóúüÜ\-\./ ]`. -/
def phClassChar (c : Char) : Bool :=
  decide (('A' ≤ c ∧ c ≤ 'Z') ∨ ('a' ≤ c ∧ c ≤ 'z') ∨ ('0' ≤ c ∧ c ≤ '9') ∨
    c ∈ ['_', 'Á', 'É', 'Í', 'Ó', 'Ú', 'Ñ',
         'á', 'é', 'í', 'ó', 'ú', 'ü', 'Ü',
         '-', '.', '/', ' '])

/-- Trailing `\s*}}` of `PLACEHOLDER_RE`.  The greedy `\s*` is deterministic
here because `}` is not whitespace: skip all whitespace, require `}}`. -/
def matchClose (l : List Char) : Option (List Char) :=
  match l.dropWhile pyIsSpace with
  | '}' :: '}' :: r => some r
  | _ => none

/-- Lazy group `([...]+?)` of `PLACEHOLDER_RE` after its first character:
try to close as early as possible, otherwise extend by one class character.
Returns the captured group and the remainder after `}}`. -/
def matchGroupAux : List Char → List Char → Option (List Char × List Char)
  | _, [] => none
  | acc, c :: rest =>
    match matchClose (c :: rest) with
    | some r => some (acc.reverse, r)
    | none => if phClassChar c then matchGroupAux (c :: acc) rest else none

/-- Start of the lazy group: it needs at least one class character. -/
def matchGroupStart : List Char → Option (List Char × List Char)
  | [] => none
  | c :: rest => if phClassChar c then matchGroupAux [c] rest else none

/-- Backtracking of the leading greedy `\s*` of `PLACEHOLDER_RE`: try the
longest whitespace prefix first (`drop k`), then shorter ones. -/
def tryStarts (l : List Char) : Nat → Option (List Char × List Char)
  | 0 => matchGroupStart l
  | k + 1 =>
    match matchGroupStart (l.drop (k + 1)) with
    | some res => some res
    | none => tryStarts l k

/-- Match `\s*([...]+?)\s*}}` (the part of `PLACEHOLDER_RE` after `{{`). -/
def matchAfterBraces (l : List Char) : Option (List Char × List Char) :=
  tryStarts l (l.takeWhile pyIsSpace).length

/-- Model of `PLACEHOLDER_RE.findall`: scan left to right, at each `{{` attempt the
rest of the pattern; on success emit the captured group and resume after the
match, on failure resume one character further.  The fuel is one unit per
scan step and `2 * length + 1` always suffices. -/
def pyFindallAux : Nat → List Char → List String
  | 0, _ => []
  | _, [] => []
  | fuel + 1, '{' :: '{' :: rest =>
    (match matchAfterBraces rest with
     | some (cap, r) => String.mk cap :: pyFindallAux fuel r
     | none => pyFindallAux fuel ('{' :: rest))
  | fuel + 1, _ :: rest => pyFindallAux fuel rest

/-- Runs `PLACEHOLDER_RE.findall(xml)` over the code points of the part text. -/
def pyFindall (l : List Char) : List String :=
  pyFindallAux (2 * l.length + 1) l

/-- Result of `extract_placeholders_full`: the set of normalized placeholders
and the map from normalized form to the first original spelling. -/
structure ExtractResult where
  placeholders_set : List String
  norm_to_original : List (String × String)
deriving Repr, DecidableEq

/-- Body of the extractor match loop: `original = m.strip()`,
`norm = normalize_key(original)`, `placeholders_set.add(norm)`,
`norm_to_original.setdefault(norm, original)`. -/
def processMatch (st : ExtractResult) (m : String) : ExtractResult :=
  let original := pyStripStr m
  let norm := normalize_key original
  ⟨setAdd st.placeholders_set norm, dictSetdefault st.norm_to_original norm original⟩

/-- Tests whether `pre` starts `s` (Python `str.startswith`). -/
def strHasPre (pre s : String) : Bool := pre.data.isPrefixOf s.data

/-- Tests whether `suf` ends `s` (Python `str.endswith`). -/
def strHasSuf (suf s : String) : Bool := suf.data.reverse.isPrefixOf s.data.reverse

/-- The candidate part names scanned by the extractor: `word/document.xml`
then, in archive order, every `word/header*.xml` and `word/footer*.xml`. -/
def candidateParts (names : List String) : List String :=
  "word/document.xml" ::
    names.flatMap (fun n =>
      (if strHasPre "word/header" n && strHasSuf ".xml" n then [n] else []) ++
      (if strHasPre "word/footer" n && strHasSuf ".xml" n then [n] else []))

/-- Raw `findall` matches contributed by one candidate part: a part absent
from the archive is skipped. -/
def partMatches (entries : List (String × String)) (part : String) : List String :=
  match dictGet? entries part with
  | some xml => pyFindall xml.data
  | none => []

/-- Source `extract_placeholders_full`, over the decoded archive
parts: fold the match-processing loop over every candidate part. -/
def extract_placeholders_full (entries : List (String × String)) : ExtractResult :=
  (candidateParts (entries.map Prod.fst)).foldl
    (fun st part => (partMatches entries part).foldl processMatch st)
    ⟨[], []⟩

/-- Declarative companion of the extractor used by its specification: the
stripped matches of all candidate parts, in scan order. -/
def scannedOriginals (entries : List (String × String)) : List String :=
  ((candidateParts (entries.map Prod.fst)).flatMap (partMatches entries)).map pyStripStr

/-- The row index `{col_norm: valor}` built by `build_context_for_render`;
a missing value (`pd.isna`) becomes the empty string. -/
def build_row_map (row : List (String × Option String)) : List (String × String) :=
  row.foldl (fun m p => dictSet m (normalize_key p.1) (p.2.getD "")) []

/-- Value resolution of `build_context_for_render` for one placeholder:
row value by normalized name, default when the row value is absent or empty,
empty string when still unresolved. -/
def resolveVal (row_map defaults_norm : List (String × String)) (ph_norm : String) : String :=
  let val0 := dictGet? row_map ph_norm
  let val1 :=
    if (val0 = none ∨ val0 = some "") ∧ (dictGet? defaults_norm ph_norm).isSome
    then dictGet? defaults_norm ph_norm else val0
  val1.getD ""

/-- Source `build_context_for_render`: keys are the original placeholder
spellings (`norm_to_original.get(ph_norm, ph_norm)`), values are
resolved from the row with default fallback. -/
def build_context_for_render (row : List (String × Option String))
    (defaults_norm : List (String × String)) (placeholders_norm : List String)
    (norm_to_original : List (String × String)) : List (String × String) :=
  let row_map := build_row_map row
  placeholders_norm.foldl
    (fun context ph_norm =>
      dictSet context ((dictGet? norm_to_original ph_norm).getD ph_norm)
        (resolveVal row_map defaults_norm ph_norm))
    []

/-- Output name of the ZIP loop for one row:
`base_name_val = row_norm.get(nombre_col_norm, "")`, sanitized when truthy,
positional fallback `documento_<i+1>` when empty, then the fixed suffix. -/
def out_name_for_row (row_norm : List (String × String)) (col : String) (i : Nat) : String :=
  let v := (dictGet? row_norm col).getD ""
  let base := if v = "" then "documento_" ++ toString (i + 1) else sanitize_filename v
  base ++ " - Certificado.docx"

/-- Names of the ZIP entries produced by the DOCX generation loop, one
`zf.writestr` per row in order (`for i in range(len(df_norm))`). -/
def zipNamesAux (col : String) (i : Nat) : List (List (String × String)) → List String
  | [] => []
  | row :: rest => out_name_for_row row col i :: zipNamesAux col (i + 1) rest

/-- Entry names of the generated DOCX archive for the given normalized rows
and naming column. -/
def zip_entry_names (rows : List (List (String × String))) (col : String) : List String :=
  zipNamesAux col 0 rows

/-- Outcomes of the external probes made by the PDF conversion helpers; one
field per effectful test in the source. -/
structure ConvEnv where
  /-- Whether `from docx2pdf import convert` succeeds. -/
  docx2pdf_import_ok : Bool
  /-- the `docx2pdf_convert(...)` call raises. -/
  docx2pdf_raises : Bool
  /-- Whether `output_pdf.exists()` after the docx2pdf call. -/
  output_pdf_exists : Bool
  /-- Whether `shutil.which("soffice") or shutil.which("libreoffice")` is non-empty. -/
  soffice_found : Bool
  /-- the `subprocess.run([...], check=True, ...)` call raises. -/
  soffice_raises : Bool
  /-- the converted `gen_file` exists in the output directory. -/
  gen_file_exists : Bool
  /-- the generated path differs from the requested one (a rename happens). -/
  gen_file_ne_output : Bool
  /-- the `gen_file.replace(output_pdf)` rename raises. -/
  replace_raises : Bool
deriving Repr, DecidableEq

/-- Source `can_convert_pdf`: docx2pdf importable or a LibreOffice
binary on the PATH. -/
def can_convert_pdf (e : ConvEnv) : Bool :=
  e.docx2pdf_import_ok || e.soffice_found

/-- Source `try_docx_to_pdf`: try docx2pdf (returning whether the
output exists), on exception fall back to LibreOffice, and report `false`
when no converter is reachable or every attempt fails. -/
def try_docx_to_pdf (e : ConvEnv) : Bool :=
  if e.docx2pdf_import_ok && !e.docx2pdf_raises then e.output_pdf_exists
  else if e.soffice_found then
    if e.soffice_raises then false
    else if e.gen_file_exists then
      if e.gen_file_ne_output then (if e.replace_raises then false else true)
      else true
    else false
  else false


/-! ### Association-list dictionary lemmas -/

theorem dictGet?_dictSet_self {α : Type} (m : List (String × α)) (k : String) (v : α) :
    dictGet? (dictSet m k v) k = some v := by
  induction m with
  | nil => simp [dictSet, dictGet?]
  | cons p rest ih =>
    by_cases h : p.1 = k
    · simp [dictSet, h, dictGet?]
    · simp [dictSet, h, dictGet?, ih]

theorem dictGet?_dictSet_ne {α : Type} (m : List (String × α)) (k : String) (v : α)
    (k' : String) (h : k' ≠ k) :
    dictGet? (dictSet m k v) k' = dictGet? m k' := by
  have hne : ¬k = k' := fun hk => h hk.symm
  induction m with
  | nil => simp [dictSet, dictGet?, hne]
  | cons p rest ih =>
    by_cases hp : p.1 = k
    · subst hp
      simp [dictSet, dictGet?, hne]
    · simp [dictSet, hp, dictGet?, ih]

theorem mem_of_dictGet? {α : Type} {m : List (String × α)} {k : String} {v : α}
    (h : dictGet? m k = some v) : (k, v) ∈ m := by
  induction m with
  | nil => simp [dictGet?] at h
  | cons p rest ih =>
    by_cases hp : p.1 = k
    · simp only [dictGet?, hp, if_pos, Option.some.injEq] at h
      have : (k, v) = p := by
        cases p
        simp only [Prod.mk.injEq]
        exact ⟨hp.symm, h.symm⟩
      rw [this]
      exact List.mem_cons_self p rest
    · simp only [dictGet?, hp, if_neg, if_false] at h
      exact List.mem_cons_of_mem _ (ih h)

theorem foldl_dictSet_get_of_not_mem {α : Type} (key : String → String) (val : String → α)
    (phs : List String) :
    ∀ (ctx : List (String × α)) (K : String),
      (∀ p ∈ phs, key p ≠ K) →
      dictGet? (phs.foldl (fun c p => dictSet c (key p) (val p)) ctx) K = dictGet? ctx K := by
  induction phs with
  | nil => intro ctx K _; rfl
  | cons q rest ih =>
    intro ctx K h
    have hq : key q ≠ K := h q (List.mem_cons_self q rest)
    have hrest : ∀ p ∈ rest, key p ≠ K := fun p hp => h p (List.mem_cons_of_mem q hp)
    simp only [List.foldl_cons]
    rw [ih _ K hrest]
    exact dictGet?_dictSet_ne ctx (key q) (val q) K (fun hk => hq hk.symm)

theorem foldl_dictSet_get {α : Type} (key : String → String) (val : String → α)
    (phs : List String) :
    ∀ (ctx : List (String × α)) (ph : String),
      ph ∈ phs → phs.Nodup → (∀ p ∈ phs, key p = key ph → p = ph) →
      dictGet? (phs.foldl (fun c p => dictSet c (key p) (val p)) ctx) (key ph) = some (val ph) := by
  induction phs with
  | nil => intro ctx ph hmem; exact absurd hmem (List.not_mem_nil ph)
  | cons q rest ih =>
    intro ctx ph hmem hnodup hinj
    simp only [List.foldl_cons]
    rcases List.mem_cons.mp hmem with hqph | hmem'
    · subst hqph
      have hnotin : ∀ p ∈ rest, key p ≠ key ph := by
        intro p hp hkey
        have := hinj p (List.mem_cons_of_mem ph hp) hkey
        subst this
        exact (List.nodup_cons.mp hnodup).1 hp
      rw [foldl_dictSet_get_of_not_mem key val rest _ (key ph) hnotin]
      exact dictGet?_dictSet_self ctx (key ph) (val ph)
    · exact ih _ ph hmem' (List.nodup_cons.mp hnodup).2
        (fun p hp => hinj p (List.mem_cons_of_mem q hp))

theorem resolveVal_cases (rm ds : List (String × String)) (ph : String) :
    resolveVal rm ds ph =
      match dictGet? rm ph with
      | some v => if v = "" then (dictGet? ds ph).getD "" else v
      | none => (dictGet? ds ph).getD "" := by
  unfold resolveVal
  cases hv : dictGet? rm ph with
  | none => cases hd : dictGet? ds ph <;> simp [hv, hd]
  | some v =>
    by_cases hv0 : v = ""
    · subst hv0
      cases hd : dictGet? ds ph <;> simp [hv, hd]
    · cases hd : dictGet? ds ph <;> simp [hv, hd, hv0]

/-- C1.  Auto-match context building: for every data row, every detected
canonical placeholder set with its first-original-spelling mapping (so the
mapping is defined on every placeholder and canonicalizes each stored
spelling), and every default set, the built context maps the original
spelling of the placeholder to the row value of the same-canonical-form column when
that value is present and non-empty, otherwise to the default for that
canonical label, otherwise to the empty string. -/
theorem build_context_auto_match_spec
    (row : List (String × Option String)) (defaults_norm : List (String × String))
    (placeholders_norm : List String) (norm_to_original : List (String × String))
    (ph orig : String)
    (hnodup : placeholders_norm.Nodup)
    (hdom : ∀ p ∈ placeholders_norm, (dictGet? norm_to_original p).isSome)
    (hcanon : ∀ q ∈ norm_to_original, normalize_key q.2 = q.1)
    (hmem : ph ∈ placeholders_norm)
    (horig : dictGet? norm_to_original ph = some orig) :
    dictGet? (build_context_for_render row defaults_norm placeholders_norm norm_to_original) orig
      = some (match dictGet? (build_row_map row) ph with
              | some v => if v = "" then (dictGet? defaults_norm ph).getD "" else v
              | none => (dictGet? defaults_norm ph).getD "") := by
  have hphcanon : normalize_key orig = ph := hcanon (ph, orig) (mem_of_dictGet? horig)
  have hinj : ∀ p ∈ placeholders_norm,
      (dictGet? norm_to_original p).getD p = (dictGet? norm_to_original ph).getD ph → p = ph := by
    intro p hp hkey
    rcases Option.isSome_iff_exists.mp (hdom p hp) with ⟨op, hop⟩
    rw [hop, horig] at hkey
    simp only [Option.getD_some] at hkey
    subst hkey
    have := hcanon (p, op) (mem_of_dictGet? hop)
    simp only at this
    rw [← this, hphcanon]
  have hkey : (dictGet? norm_to_original ph).getD ph = orig := by rw [horig]; rfl
  unfold build_context_for_render
  rw [← hkey]
  rw [foldl_dictSet_get (fun p => (dictGet? norm_to_original p).getD p)
    (fun p => resolveVal (build_row_map row) defaults_norm p)
    placeholders_norm [] ph hmem hnodup hinj]
  rw [resolveVal_cases]

/-- Witness for C1 at a concrete row, template mapping and defaults. -/
theorem build_context_auto_match_spec_witness :
    dictGet? (build_context_for_render [("Nombre", some "Ana"), ("Fecha", none)]
        [("FECHA", "2025-10-15")] ["NOMBRE", "FECHA"]
        [("NOMBRE", "Nombre"), ("FECHA", "Fecha")]) "Fecha"
      = some "2025-10-15" :=
  (build_context_auto_match_spec [("Nombre", some "Ana"), ("Fecha", none)]
    [("FECHA", "2025-10-15")] ["NOMBRE", "FECHA"]
    [("NOMBRE", "Nombre"), ("FECHA", "Fecha")] "FECHA" "Fecha"
    (by decide) (by decide) (by decide) (by decide) (by decide)).trans (by decide)


/-! ### Placeholder extractor lemmas -/

theorem mem_setAdd {s : List String} {x n : String} :
    n ∈ setAdd s x ↔ n ∈ s ∨ n = x := by
  unfold setAdd
  by_cases h : x ∈ s
  · simp only [h, if_pos]
    constructor
    · exact Or.inl
    · rintro (hn | rfl)
      · exact hn
      · exact h
  · simp [h]

theorem dictGet?_dictSetdefault {α : Type} (d : List (String × α)) (k : String) (v : α)
    (x : String) :
    dictGet? (dictSetdefault d k v) x =
      match dictGet? d x with
      | some w => some w
      | none => if x = k then some v else none := by
  induction d with
  | nil =>
    by_cases h : x = k
    · subst h; simp [dictSetdefault, dictGet?]
    · have h2 : ¬k = x := fun hk => h hk.symm
      simp [dictSetdefault, dictGet?, h, h2]
  | cons p rest ih =>
    by_cases hp : p.1 = k
    · by_cases hx : p.1 = x
      · have hkx : k = x := by rw [← hp, hx]
        simp [dictSetdefault, dictGet?, hp, hx, hkx]
      · have hxk : ¬x = k := fun hh => hx (by rw [hp, hh])
        have hkx : ¬k = x := fun hh => hxk hh.symm
        cases hdx : dictGet? rest x with
        | some w => simp [dictSetdefault, dictGet?, hp, hx, hdx, hkx]
        | none => simp [dictSetdefault, dictGet?, hp, hx, hdx, hxk, hkx]
    · by_cases hx : p.1 = x
      · have hxk : ¬x = k := fun hh => hp (by rw [hx, hh])
        simp [dictSetdefault, dictGet?, hp, hx, hxk]
      · simp [dictSetdefault, dictGet?, hp, hx, ih]

theorem dictSetdefault_keys {α : Type} (d : List (String × α)) (k : String) (v : α) :
    (dictSetdefault d k v).map Prod.fst = setAdd (d.map Prod.fst) k := by
  induction d with
  | nil => simp [dictSetdefault, setAdd]
  | cons p rest ih =>
    by_cases hp : p.1 = k
    · have hk : k ∈ (p :: rest).map Prod.fst := by
        simp only [List.map_cons, List.mem_cons]
        exact Or.inl hp.symm
      simp [dictSetdefault, hp, setAdd, hk]
    · simp only [dictSetdefault, hp, if_false, List.map_cons, ih]
      unfold setAdd
      have hk : (k ∈ p.1 :: rest.map Prod.fst) ↔ k ∈ rest.map Prod.fst := by
        simp only [List.mem_cons]
        constructor
        · rintro (rfl | h)
          · exact absurd rfl hp
          · exact h
        · exact Or.inr
      by_cases hm : k ∈ rest.map Prod.fst
      · simp [hm, hk.mpr hm]
      · simp only [hm, if_false]
        rw [if_neg (fun h => hm (hk.mp h))]
        simp

theorem mem_dictSetdefault {α : Type} {d : List (String × α)} {k : String} {v : α}
    {q : String × α} (h : q ∈ dictSetdefault d k v) : q ∈ d ∨ q = (k, v) := by
  induction d with
  | nil => simpa [dictSetdefault] using h
  | cons p rest ih =>
    by_cases hp : p.1 = k
    · simp only [dictSetdefault, hp, if_pos] at h
      exact Or.inl h
    · simp only [dictSetdefault, hp, if_false, List.mem_cons] at h
      rcases h with rfl | h
      · exact Or.inl (List.mem_cons_self _ _)
      · rcases ih h with hh | hh
        · exact Or.inl (List.mem_cons_of_mem _ hh)
        · exact Or.inr hh

theorem extract_eq_processFold (entries : List (String × String)) :
    extract_placeholders_full entries
      = ((candidateParts (entries.map Prod.fst)).flatMap (partMatches entries)).foldl
          processMatch ⟨[], []⟩ := by
  unfold extract_placeholders_full
  generalize candidateParts (entries.map Prod.fst) = parts
  generalize (⟨[], []⟩ : ExtractResult) = st
  induction parts generalizing st with
  | nil => rfl
  | cons p rest ih => simp only [List.foldl_cons, List.flatMap_cons, List.foldl_append, ih]

theorem processFold_set_mem :
    ∀ (ms : List String) (st : ExtractResult) (n : String),
      n ∈ (ms.foldl processMatch st).placeholders_set ↔
        n ∈ st.placeholders_set ∨ ∃ m ∈ ms, normalize_key (pyStripStr m) = n := by
  intro ms
  induction ms with
  | nil => simp
  | cons m rest ih =>
    intro st n
    simp only [List.foldl_cons, ih, processMatch, mem_setAdd, List.mem_cons]
    constructor
    · rintro ((h | rfl) | ⟨m', hm', rfl⟩)
      · exact Or.inl h
      · exact Or.inr ⟨m, Or.inl rfl, rfl⟩
      · exact Or.inr ⟨m', Or.inr hm', rfl⟩
    · rintro (h | ⟨m', hm' | hm', rfl⟩)
      · exact Or.inl (Or.inl h)
      · subst hm'; exact Or.inl (Or.inr rfl)
      · exact Or.inr ⟨m', hm', rfl⟩

theorem processFold_get :
    ∀ (ms : List String) (st : ExtractResult) (n : String),
      dictGet? (ms.foldl processMatch st).norm_to_original n =
        match dictGet? st.norm_to_original n with
        | some v => some v
        | none => (ms.map pyStripStr).find? (fun o => normalize_key o == n) := by
  intro ms
  induction ms with
  | nil =>
    intro st n
    cases h : dictGet? st.norm_to_original n <;> simp [h]
  | cons m rest ih =>
    intro st n
    simp only [List.foldl_cons, ih, processMatch, dictGet?_dictSetdefault, List.map_cons]
    cases hst : dictGet? st.norm_to_original n with
    | some v => simp
    | none =>
      by_cases hm : normalize_key (pyStripStr m) = n
      · rw [if_pos hm.symm]
        rw [List.find?_cons_of_pos _ (by simp [hm])]
      · rw [if_neg (fun h => hm h.symm)]
        rw [List.find?_cons_of_neg _ (by simp [hm])]

/-- C6.  The placeholder extractor returns exactly the canonical labels of
the `\x7b\x7b LABEL \x7d\x7d` matches across the main body, header and
footer parts (`scannedOriginals`), and maps every canonical label to the
first original (stripped) spelling encountered during that scan. -/
theorem extract_placeholders_full_spec (entries : List (String × String)) (n : String) :
    (n ∈ (extract_placeholders_full entries).placeholders_set ↔
      ∃ o ∈ scannedOriginals entries, normalize_key o = n)
    ∧ dictGet? (extract_placeholders_full entries).norm_to_original n
        = (scannedOriginals entries).find? (fun o => normalize_key o == n) := by
  rw [extract_eq_processFold]
  constructor
  · rw [processFold_set_mem]
    simp only [List.not_mem_nil, false_or, scannedOriginals, List.mem_map]
    constructor
    · rintro ⟨m, hm, rfl⟩
      exact ⟨pyStripStr m, ⟨m, hm, rfl⟩, rfl⟩
    · rintro ⟨o, ⟨m, hm, rfl⟩, rfl⟩
      exact ⟨m, hm, rfl⟩
  · rw [processFold_get]
    simp [scannedOriginals, dictGet?]

/-- C9.  Extractor invariant: the returned placeholder set is exactly the
key list of the canonical-to-original mapping, and `normalize_key` applied
to each stored original spelling yields its canonical key. -/
theorem extract_placeholders_full_invariant (entries : List (String × String)) :
    (extract_placeholders_full entries).placeholders_set
      = (extract_placeholders_full entries).norm_to_original.map Prod.fst
    ∧ ∀ q ∈ (extract_placeholders_full entries).norm_to_original,
        normalize_key q.2 = q.1 := by
  rw [extract_eq_processFold]
  generalize ((candidateParts (entries.map Prod.fst)).flatMap (partMatches entries)) = ms
  have main : ∀ (ms : List String) (st : ExtractResult),
      st.placeholders_set = st.norm_to_original.map Prod.fst →
      (∀ q ∈ st.norm_to_original, normalize_key q.2 = q.1) →
      (ms.foldl processMatch st).placeholders_set
        = (ms.foldl processMatch st).norm_to_original.map Prod.fst
      ∧ ∀ q ∈ (ms.foldl processMatch st).norm_to_original, normalize_key q.2 = q.1 := by
    intro ms
    induction ms with
    | nil => intro st h1 h2; exact ⟨h1, h2⟩
    | cons m rest ih =>
      intro st h1 h2
      simp only [List.foldl_cons]
      apply ih
      · simp only [processMatch, dictSetdefault_keys, h1]
      · intro q hq
        rcases mem_dictSetdefault hq with hh | rfl
        · exact h2 q hh
        · rfl
  exact main ms ⟨[], []⟩ rfl (by simp)

/-- Witness for C9: a concrete template archive, instantiating the canonical
invariant at its single mapping entry. -/
theorem extract_placeholders_full_invariant_witness :
    normalize_key "Nombre" = "NOMBRE" :=
  (extract_placeholders_full_invariant
      [("word/document.xml", "<w:p>\x7b\x7bNombre\x7d\x7d</w:p>")]).2
    ("NOMBRE", "Nombre") (by decide)


/-! ### Archive naming loop and converter availability -/

theorem zipNamesAux_length (col : String) :
    ∀ (i : Nat) (rows : List (List (String × String))),
      (zipNamesAux col i rows).length = rows.length := by
  intro i rows
  induction rows generalizing i with
  | nil => rfl
  | cons row rest ih => simp [zipNamesAux, ih]

theorem zipNamesAux_get? (col : String) :
    ∀ (rows : List (List (String × String))) (i0 i : Nat) (h : i < rows.length),
      (zipNamesAux col i0 rows).get? i
        = some (out_name_for_row (rows.get ⟨i, h⟩) col (i0 + i)) := by
  intro rows
  induction rows with
  | nil => intro i0 i h; exact absurd h (Nat.not_lt_zero i)
  | cons row rest ih =>
    intro i0 i h
    cases i with
    | zero => simp [zipNamesAux]
    | succ j =>
      have hj : j < rest.length := Nat.lt_of_succ_lt_succ h
      simp only [zipNamesAux, List.get?_cons_succ, List.get_cons_succ]
      rw [ih (i0 + 1) j hj]
      have : i0 + 1 + j = i0 + (j + 1) := by omega
      rw [this]

/-- C7.  A row whose value in the chosen naming column is empty is not an
error: its archive entry is named with the positional fallback
`documento_<row-number>` (1-based) plus the fixed suffix, and the loop still
produces exactly one entry per row. -/
theorem empty_naming_value_positional_fallback
    (rows : List (List (String × String))) (col : String) (i : Nat)
    (hi : i < rows.length)
    (hempty : (dictGet? (rows.get ⟨i, hi⟩) col).getD "" = "") :
    (zip_entry_names rows col).get? i
      = some ("documento_" ++ toString (i + 1) ++ " - Certificado.docx")
    ∧ (zip_entry_names rows col).length = rows.length := by
  constructor
  · rw [zip_entry_names, zipNamesAux_get? col rows 0 i hi]
    simp only [out_name_for_row, Nat.zero_add]
    rw [if_pos hempty]
  · exact zipNamesAux_length col 0 rows

/-- Witness for C7 at a one-row data set with an empty naming value. -/
theorem empty_naming_value_positional_fallback_witness :
    (zip_entry_names [[("NOMBRE", "")]] "NOMBRE").get? 0
      = some ("documento_" ++ toString (0 + 1) ++ " - Certificado.docx")
    ∧ (zip_entry_names [[("NOMBRE", "")]] "NOMBRE").length = [[("NOMBRE", "")]].length :=
  empty_naming_value_positional_fallback [[("NOMBRE", "")]] "NOMBRE" 0 (by decide) (by decide)

/-- C2 (code bug).  Two rows whose naming values coincide produce two archive
entries with the same name: the loop does not make names pairwise distinct,
the positional fallback applies only to empty naming values. -/
theorem zip_entry_names_duplicate_on_repeated_names :
    zip_entry_names [[("NOMBRE", "Ana")], [("NOMBRE", "Ana")]] "NOMBRE"
      = ["Ana - Certificado.docx", "Ana - Certificado.docx"]
    ∧ ¬ (zip_entry_names [[("NOMBRE", "Ana")], [("NOMBRE", "Ana")]] "NOMBRE").Nodup := by
  constructor
  · decide
  · decide

/-- C8.  When neither docx2pdf nor a LibreOffice binary is available,
`try_docx_to_pdf` reports `false` (no conversion attempted, nothing raised
in the model); `can_convert_pdf` reports exactly whether some converter is
reachable. -/
theorem converter_unavailable_graceful (e : ConvEnv) :
    (e.docx2pdf_import_ok = false ∧ e.soffice_found = false → try_docx_to_pdf e = false)
    ∧ (can_convert_pdf e = true ↔ (e.docx2pdf_import_ok = true ∨ e.soffice_found = true)) := by
  constructor
  · rintro ⟨h1, h2⟩
    simp [try_docx_to_pdf, h1, h2]
  · simp [can_convert_pdf]

/-- Witness for C8: the environment with no converter at all. -/
theorem converter_unavailable_graceful_witness :
    try_docx_to_pdf ⟨false, false, false, false, false, false, false, false⟩ = false :=
  (converter_unavailable_graceful ⟨false, false, false, false, false, false, false, false⟩).1
    ⟨rfl, rfl⟩


/-! ### Filename sanitizer lemmas -/

theorem dropWhile_isSuffix (p : Char → Bool) (l : List Char) :
    ∃ t, t ++ l.dropWhile p = l := by
  induction l with
  | nil => exact ⟨[], rfl⟩
  | cons c r ih =>
    by_cases h : p c
    · obtain ⟨t, ht⟩ := ih
      exact ⟨c :: t, by simp [List.dropWhile_cons, h, ht]⟩
    · exact ⟨[], by simp [List.dropWhile_cons, h]⟩

theorem mem_of_mem_dropWhile (p : Char → Bool) {l : List Char} {c : Char}
    (h : c ∈ l.dropWhile p) : c ∈ l := by
  obtain ⟨t, ht⟩ := dropWhile_isSuffix p l
  rw [← ht]
  exact List.mem_append_right t h

theorem head_dropWhile_not (p : Char → Bool) (l : List Char) :
    ∀ c, (l.dropWhile p).head? = some c → p c = false := by
  induction l with
  | nil => intro c h; simp at h
  | cons d r ih =>
    intro c h
    by_cases hd : p d
    · rw [List.dropWhile_cons, if_pos hd] at h
      exact ih c h
    · rw [List.dropWhile_cons, if_neg hd] at h
      simp only [List.head?_cons, Option.some.injEq] at h
      rw [← h]
      exact Bool.of_not_eq_true hd

theorem strip2_head (p : Char → Bool) (l : List Char) :
    ∀ c, (((l.dropWhile p).reverse.dropWhile p).reverse).head? = some c → p c = false := by
  intro c h
  obtain ⟨t, ht⟩ := dropWhile_isSuffix p (l.dropWhile p).reverse
  set B := (l.dropWhile p).reverse.dropWhile p with hB
  have hpre : l.dropWhile p = B.reverse ++ t.reverse := by
    have := congrArg List.reverse ht
    simpa using this.symm
  cases hBr : B.reverse with
  | nil => rw [hBr] at h; simp at h
  | cons d s =>
    rw [hBr] at h
    simp only [List.head?_cons, Option.some.injEq] at h
    subst h
    apply head_dropWhile_not p l d
    rw [hpre, hBr]
    simp

theorem strip2_last (p : Char → Bool) (l : List Char) :
    ∀ c, (((l.dropWhile p).reverse.dropWhile p).reverse).getLast? = some c → p c = false := by
  intro c h
  rw [List.getLast?_reverse] at h
  exact head_dropWhile_not p (l.dropWhile p).reverse c h

theorem strip2_mem (p : Char → Bool) {l : List Char} {c : Char}
    (h : c ∈ ((l.dropWhile p).reverse.dropWhile p).reverse) : c ∈ l := by
  rw [List.mem_reverse] at h
  have h1 := mem_of_mem_dropWhile p h
  rw [List.mem_reverse] at h1
  exact mem_of_mem_dropWhile p h1

theorem dropWhile_length_le (p : Char → Bool) (l : List Char) :
    (l.dropWhile p).length ≤ l.length := by
  obtain ⟨t, ht⟩ := dropWhile_isSuffix p l
  have hlen := congrArg List.length ht
  simp only [List.length_append] at hlen
  omega

theorem strip2_length_le (p : Char → Bool) (l : List Char) :
    (((l.dropWhile p).reverse.dropWhile p).reverse).length ≤ l.length := by
  calc (((l.dropWhile p).reverse.dropWhile p).reverse).length
      = ((l.dropWhile p).reverse.dropWhile p).length := List.length_reverse _
    _ ≤ (l.dropWhile p).reverse.length := dropWhile_length_le _ _
    _ = (l.dropWhile p).length := List.length_reverse _
    _ ≤ l.length := dropWhile_length_le _ _

theorem mem_sanitize_no_forbidden {f : String} {c : Char}
    (h : c ∈ (sanitize_filename f).data) : forbiddenFilenameChar c = false := by
  unfold sanitize_filename at h
  simp only at h
  have h1 := List.take_subset 200 _ h
  by_cases hs : stripDots (pyStripL (f.data.map
      (fun c => if forbiddenFilenameChar c then '_' else c))) = []
  · rw [if_pos hs] at h1
    have hall : ∀ d ∈ "documento".data, forbiddenFilenameChar d = false := by decide
    exact hall c h1
  · rw [if_neg hs] at h1
    have h2 : c ∈ pyStripL (f.data.map
        (fun c => if forbiddenFilenameChar c then '_' else c)) := by
      unfold stripDots at h1
      exact strip2_mem _ h1
    have h3 : c ∈ f.data.map (fun c => if forbiddenFilenameChar c then '_' else c) := by
      unfold pyStripL at h2
      exact strip2_mem _ h2
    rcases List.mem_map.mp h3 with ⟨a, _, ha⟩
    by_cases hfa : forbiddenFilenameChar a
    · rw [if_pos hfa] at ha
      rw [← ha]
      decide
    · rw [if_neg hfa] at ha
      rw [← ha]
      exact Bool.of_not_eq_true hfa

/-- C5 counterexample: the DEL character U+007F is a control character but is
not in the replaced class, so it survives sanitization verbatim. -/
theorem sanitize_filename_keeps_delete_control :
    sanitize_filename ⟨['\u007F']⟩ = ⟨['\u007F']⟩
    ∧ (sanitize_filename ⟨['\u007F']⟩).data.any
        (fun c => decide ((0x7F ≤ c.val ∧ c.val ≤ 0x9F) ∨ c.val ≤ 0x1F)) = true := by
  constructor
  · decide
  · decide

/-- C5 (amended).  For every input string, the sanitized name contains no
reserved character and no C0 control character (U+0000-U+001F; DEL and the
C1 controls are outside the replaced class), its length is at most 200, and
the empty string maps to "documento".  (The function is total, so it cannot
raise.) -/
theorem sanitize_filename_safe_chars_bounded :
    (∀ f : String, (∀ c ∈ (sanitize_filename f).data, forbiddenFilenameChar c = false)
      ∧ (sanitize_filename f).data.length ≤ 200)
    ∧ sanitize_filename "" = "documento" := by
  refine ⟨fun f => ⟨fun c hc => mem_sanitize_no_forbidden hc, ?_⟩, by decide⟩
  unfold sanitize_filename
  simp only
  exact List.length_take_le 200 _

set_option maxRecDepth 4000 in
/-- C10 counterexample: on a 201-character input with a dot at index 199 the
200-character truncation exposes a trailing dot, so the sanitized name can
end with a dot. -/
theorem sanitize_filename_truncation_trailing_dot :
    (sanitize_filename ⟨List.replicate 199 'a' ++ ['.', 'b']⟩).data.getLast? = some '.' := by
  decide

/-- C10 (amended).  The sanitizer always returns a non-empty name (the
"documento" fallback covers every input that reduces to empty, e.g.
whitespace-only or all-dots inputs) that never starts with a dot, and it
never ends with a dot provided the input has at most 200 characters (the
truncation can expose a trailing dot on longer inputs). -/
theorem sanitize_filename_nonempty_no_leading_dot :
    (∀ f : String, (sanitize_filename f).data ≠ []
      ∧ (sanitize_filename f).data.head? ≠ some '.'
      ∧ (f.data.length ≤ 200 → (sanitize_filename f).data.getLast? ≠ some '.'))
    ∧ sanitize_filename "   " = "documento" ∧ sanitize_filename " .. " = "documento" := by
  refine ⟨fun f => ?_, by decide, by decide⟩
  unfold sanitize_filename
  simp only
  set repl := f.data.map (fun c => if forbiddenFilenameChar c then '_' else c) with hrepl
  set x := if stripDots (pyStripL repl) = [] then "documento".data
    else stripDots (pyStripL repl) with hx
  have hxne : x ≠ [] := by
    rw [hx]
    by_cases hs : stripDots (pyStripL repl) = []
    · rw [if_pos hs]; decide
    · rw [if_neg hs]; exact hs
  have hxhead : x.head? ≠ some '.' := by
    rw [hx]
    by_cases hs : stripDots (pyStripL repl) = []
    · rw [if_pos hs]; decide
    · rw [if_neg hs]
      intro hh
      have := strip2_head (fun c => c == '.') (pyStripL repl) '.'
        (by unfold stripDots at hh; exact hh)
      simp at this
  have hxlast : x.getLast? ≠ some '.' := by
    rw [hx]
    by_cases hs : stripDots (pyStripL repl) = []
    · rw [if_pos hs]; decide
    · rw [if_neg hs]
      intro hh
      have := strip2_last (fun c => c == '.') (pyStripL repl) '.'
        (by unfold stripDots at hh; exact hh)
      simp at this
  have take200_cons : ∀ (d : Char) (s : List Char),
      List.take 200 (d :: s) = d :: List.take 199 s := fun _ _ => rfl
  refine ⟨?_, ?_, ?_⟩
  · cases hxc : x with
    | nil => exact absurd hxc hxne
    | cons d s =>
      rw [take200_cons]
      exact List.cons_ne_nil d _
  · cases hxc : x with
    | nil => exact absurd hxc hxne
    | cons d s =>
      rw [take200_cons]
      rw [hxc] at hxhead
      simpa using hxhead
  · intro hlen
    have hxlen : x.length ≤ 200 := by
      rw [hx]
      by_cases hs : stripDots (pyStripL repl) = []
      · rw [if_pos hs]; decide
      · rw [if_neg hs]
        calc (stripDots (pyStripL repl)).length
            ≤ (pyStripL repl).length := by unfold stripDots; exact strip2_length_le _ _
          _ ≤ repl.length := by unfold pyStripL; exact strip2_length_le _ _
          _ = f.data.length := by rw [hrepl]; exact List.length_map _ _
          _ ≤ 200 := hlen
    rw [List.take_of_length_le hxlen]
    exact hxlast


/-! ### Key normalization: character-level facts -/

/-- Accent-strip-and-uppercase of a single character: the per-character
action of `strip_accents_upper`. -/
def expandChar (c : Char) : List Char :=
  ((nfkdChar c).filter (fun d => !combining d)).map pyUpperChar

/-- The first character, if any, is not whitespace. -/
def headOk : List Char → Bool
  | [] => true
  | c :: _ => !pyIsSpace c

/-- The last character, if any, is not whitespace. -/
def lastOk (l : List Char) : Bool := headOk l.reverse

/-- Every whitespace character is a plain space and no two whitespace
characters are adjacent. -/
def wsSingle : List Char → Bool
  | [] => true
  | [c] => !pyIsSpace c || c == ' '
  | c :: d :: rest => (!pyIsSpace c || (c == ' ' && !pyIsSpace d)) && wsSingle (d :: rest)

theorem sup_eq_flatMap (l : List Char) :
    stripAccentsUpperL l = l.flatMap expandChar := by
  induction l with
  | nil => rfl
  | cons c r ih =>
    have h : stripAccentsUpperL (c :: r) = expandChar c ++ stripAccentsUpperL r := by
      simp [stripAccentsUpperL, expandChar]
    rw [h, ih, List.flatMap_cons]

theorem nfkdChar_of_none {c : Char} (h : nfkdTable.find? (fun p => p.1 == c) = none) :
    nfkdChar c = [c] := by
  unfold nfkdChar
  rw [h]

theorem nfkdChar_of_some {c : Char} {p : Char × List Char}
    (h : nfkdTable.find? (fun p => p.1 == c) = some p) : nfkdChar c = p.2 := by
  unfold nfkdChar
  rw [h]

theorem pyUpperChar_of_none {c : Char} (h : upperTable.find? (fun p => p.1 == c) = none) :
    pyUpperChar c = c := by
  unfold pyUpperChar
  rw [h]
  rfl

theorem pyUpperChar_of_some {c : Char} {q : Char × Char}
    (h : upperTable.find? (fun p => p.1 == c) = some q) : pyUpperChar c = q.2 := by
  unfold pyUpperChar
  rw [h]
  rfl

theorem nfkdTable_key_not_ws : ∀ q ∈ nfkdTable, pyIsSpace q.1 = false := by decide

theorem nfkdTable_base_nonempty :
    ∀ q ∈ nfkdTable, q.2.filter (fun d => !combining d) ≠ [] := by decide

theorem nfkdTable_out_stable :
    ∀ q ∈ nfkdTable, ∀ d ∈ q.2, combining d = true ∨
      (expandChar (pyUpperChar d) = [pyUpperChar d] ∧ pyIsSpace (pyUpperChar d) = false) := by
  decide

theorem upperTable_out_stable :
    ∀ q ∈ upperTable, expandChar q.2 = [q.2]
      ∧ pyIsSpace q.1 = false ∧ pyIsSpace q.2 = false := by decide

theorem expandChar_of_none {c : Char} (hf : nfkdTable.find? (fun p => p.1 == c) = none)
    (hc : combining c = false) : expandChar c = [pyUpperChar c] := by
  unfold expandChar
  rw [nfkdChar_of_none hf]
  simp [hc]

theorem mem_expandChar {c e : Char} (h : e ∈ expandChar c) :
    ∃ d, d ∈ nfkdChar c ∧ combining d = false ∧ e = pyUpperChar d := by
  unfold expandChar at h
  rcases List.mem_map.mp h with ⟨d, hd, rfl⟩
  rcases List.mem_filter.mp hd with ⟨hd1, hd2⟩
  exact ⟨d, hd1, by simpa using hd2, rfl⟩

theorem expandChar_stable (c : Char) : ∀ e ∈ expandChar c, expandChar e = [e] := by
  intro e he
  rcases mem_expandChar he with ⟨d, hd, hcomb, rfl⟩
  cases hf : nfkdTable.find? (fun p => p.1 == c) with
  | none =>
    rw [nfkdChar_of_none hf] at hd
    simp only [List.mem_singleton] at hd
    subst hd
    cases hg : upperTable.find? (fun p => p.1 == d) with
    | none =>
      rw [pyUpperChar_of_none hg]
      rw [expandChar_of_none hf hcomb, pyUpperChar_of_none hg]
    | some q =>
      rw [pyUpperChar_of_some hg]
      exact (upperTable_out_stable q (List.mem_of_find?_eq_some hg)).1
  | some p =>
    rw [nfkdChar_of_some hf] at hd
    rcases nfkdTable_out_stable p (List.mem_of_find?_eq_some hf) d hd with hcm | hst
    · rw [hcm] at hcomb; cases hcomb
    · exact hst.1

theorem expandChar_ws (c : Char) : ∀ e ∈ expandChar c, pyIsSpace e = pyIsSpace c := by
  intro e he
  rcases mem_expandChar he with ⟨d, hd, hcomb, rfl⟩
  cases hf : nfkdTable.find? (fun p => p.1 == c) with
  | none =>
    rw [nfkdChar_of_none hf] at hd
    simp only [List.mem_singleton] at hd
    subst hd
    cases hg : upperTable.find? (fun p => p.1 == d) with
    | none => rw [pyUpperChar_of_none hg]
    | some q =>
      have hq1 : q.1 = d := by simpa using List.find?_some hg
      have hgood := upperTable_out_stable q (List.mem_of_find?_eq_some hg)
      rw [pyUpperChar_of_some hg, hgood.2.2, ← hq1, hgood.2.1]
  | some p =>
    have hp1 : p.1 = c := by simpa using List.find?_some hf
    have hkey := nfkdTable_key_not_ws p (List.mem_of_find?_eq_some hf)
    rw [nfkdChar_of_some hf] at hd
    rcases nfkdTable_out_stable p (List.mem_of_find?_eq_some hf) d hd with hcm | hst
    · rw [hcm] at hcomb; cases hcomb
    · rw [hst.2, ← hp1, hkey]

theorem expandChar_nonempty {c : Char} (hc : combining c = false) : expandChar c ≠ [] := by
  cases hf : nfkdTable.find? (fun p => p.1 == c) with
  | none => rw [expandChar_of_none hf hc]; exact List.cons_ne_nil _ _
  | some p =>
    unfold expandChar
    rw [nfkdChar_of_some hf]
    have := nfkdTable_base_nonempty p (List.mem_of_find?_eq_some hf)
    simpa using this

theorem flatMap_expand_of_stable {y : List Char} (h : ∀ e ∈ y, expandChar e = [e]) :
    y.flatMap expandChar = y := by
  induction y with
  | nil => rfl
  | cons e r ih =>
    rw [List.flatMap_cons, h e (List.mem_cons_self e r),
      ih (fun x hx => h x (List.mem_cons_of_mem e hx))]
    rfl

theorem sup_idem (l : List Char) :
    stripAccentsUpperL (stripAccentsUpperL l) = stripAccentsUpperL l := by
  rw [sup_eq_flatMap l, sup_eq_flatMap]
  apply flatMap_expand_of_stable
  intro e he
  rcases List.mem_flatMap.mp he with ⟨c, _, hec⟩
  exact expandChar_stable c e hec


/-! ### Key normalization: shape of the whitespace-normalized stage -/

theorem headOk_of_head? {l : List Char}
    (h : ∀ c, l.head? = some c → pyIsSpace c = false) : headOk l = true := by
  cases l with
  | nil => rfl
  | cons c r =>
    have := h c rfl
    simp [headOk, this]

theorem headOk_pyStripL (l : List Char) : headOk (pyStripL l) = true :=
  headOk_of_head? (strip2_head pyIsSpace l)

theorem lastOk_pyStripL (l : List Char) : lastOk (pyStripL l) = true := by
  unfold lastOk
  apply headOk_of_head?
  intro c h
  rw [List.head?_reverse] at h
  exact strip2_last pyIsSpace l c h

theorem headOk_replaceNewlines {l : List Char} (h : headOk l = true) :
    headOk (replaceNewlines l) = true := by
  cases l with
  | nil => rfl
  | cons c r =>
    simp only [headOk, Bool.not_eq_eq_eq_not, Bool.not_true] at h
    have hc : ¬c = '\n' := fun hh => by rw [hh] at h; exact absurd h (by decide)
    simp [replaceNewlines, headOk, hc, h]

theorem lastOk_replaceNewlines {l : List Char} (h : lastOk l = true) :
    lastOk (replaceNewlines l) = true := by
  unfold lastOk at h ⊢
  unfold replaceNewlines
  rw [← List.map_reverse]
  exact headOk_replaceNewlines h

theorem headOk_collapseAux {l : List Char} (h : headOk l = true) :
    headOk (collapseAux false l) = true := by
  cases l with
  | nil => rfl
  | cons c r =>
    simp only [headOk, Bool.not_eq_eq_eq_not, Bool.not_true] at h
    simp [collapseAux, h, headOk]

theorem headOk_append_left {a b : List Char} (ha : a ≠ []) :
    headOk (a ++ b) = headOk a := by
  cases a with
  | nil => exact absurd rfl ha
  | cons c r => rfl

theorem lastOk_cons (c : Char) (r : List Char) :
    lastOk (c :: r) = if r.isEmpty then !pyIsSpace c else lastOk r := by
  cases r with
  | nil => rfl
  | cons d s =>
    have h1 : lastOk (c :: d :: s) = headOk ((d :: s).reverse ++ [c]) := by
      unfold lastOk
      rw [List.reverse_cons]
    rw [h1, headOk_append_left (by simp)]
    simp [lastOk]

theorem collapseAux_ne_nil {l : List Char} :
    ∀ b, lastOk l = true → l ≠ [] → collapseAux b l ≠ [] := by
  induction l with
  | nil => intro b _ h; exact absurd rfl h
  | cons c r ih =>
    intro b hlast _
    by_cases hc : pyIsSpace c
    · have hr : ¬r.isEmpty := by
        intro hre
        rw [lastOk_cons, if_pos hre, hc] at hlast
        exact absurd hlast (by decide)
      have hrne : r ≠ [] := by simpa [List.isEmpty_iff] using hr
      have hlr : lastOk r = true := by
        rw [lastOk_cons, if_neg hr] at hlast
        exact hlast
      simp only [collapseAux, hc, if_pos]
      by_cases hb : b
      · subst hb
        simp only [if_pos]
        exact ih true hlr hrne
      · simp only [Bool.not_eq_true] at hb
        subst hb
        simp only [Bool.false_eq_true, if_false]
        exact List.cons_ne_nil _ _
    · simp only [collapseAux, hc, if_false]
      exact List.cons_ne_nil _ _

theorem lastOk_collapseAux {l : List Char} :
    ∀ b, lastOk l = true → lastOk (collapseAux b l) = true := by
  induction l with
  | nil => intro b _; rfl
  | cons c r ih =>
    intro b hlast
    by_cases hc : pyIsSpace c
    · have hr : ¬r.isEmpty := by
        intro hre
        rw [lastOk_cons, if_pos hre, hc] at hlast
        exact absurd hlast (by decide)
      have hrne : r ≠ [] := by simpa [List.isEmpty_iff] using hr
      have hlr : lastOk r = true := by
        rw [lastOk_cons, if_neg hr] at hlast
        exact hlast
      simp only [collapseAux, hc, if_pos]
      by_cases hb : b
      · subst hb
        simp only [if_pos]
        exact ih true hlr
      · simp only [Bool.not_eq_true] at hb
        subst hb
        simp only [Bool.false_eq_true, if_false]
        have hy := collapseAux_ne_nil true hlr hrne
        rw [lastOk_cons, if_neg (by simpa [List.isEmpty_iff] using hy)]
        exact ih true hlr
    · have hcf : pyIsSpace c = false := Bool.of_not_eq_true hc
      simp only [collapseAux, hcf, Bool.false_eq_true, if_false]
      by_cases hre : r.isEmpty
      · have hr0 : r = [] := by simpa [List.isEmpty_iff] using hre
        subst hr0
        simp only [collapseAux]
        rw [lastOk_cons] at hlast ⊢
        simpa using hlast
      · have hrne : r ≠ [] := by simpa [List.isEmpty_iff] using hre
        have hlr : lastOk r = true := by
          rw [lastOk_cons, if_neg hre] at hlast
          exact hlast
        have hy := collapseAux_ne_nil (l := r) false hlr hrne
        rw [lastOk_cons, if_neg (by simpa [List.isEmpty_iff] using hy)]
        exact ih false hlr

theorem wsSingle_cons_nonws {c : Char} {y : List Char} (hc : pyIsSpace c = false)
    (hy : wsSingle y = true) : wsSingle (c :: y) = true := by
  cases y with
  | nil => simp [wsSingle, hc]
  | cons d s => simp [wsSingle, hc, hy]

theorem wsSingle_space_cons {y : List Char} (hh : headOk y = true)
    (hy : wsSingle y = true) : wsSingle (' ' :: y) = true := by
  cases y with
  | nil => decide
  | cons d s =>
    simp only [headOk, Bool.not_eq_eq_eq_not, Bool.not_true] at hh
    simp [wsSingle, hh, hy]

theorem wsSingle_collapseAux (l : List Char) :
    wsSingle (collapseAux false l) = true
    ∧ wsSingle (collapseAux true l) = true
    ∧ headOk (collapseAux true l) = true := by
  induction l with
  | nil => exact ⟨rfl, rfl, rfl⟩
  | cons c r ih =>
    by_cases hc : pyIsSpace c
    · refine ⟨?_, ?_, ?_⟩
      · simp only [collapseAux, hc, if_pos, Bool.false_eq_true, if_false]
        exact wsSingle_space_cons ih.2.2 ih.2.1
      · simp only [collapseAux, hc, if_pos]
        exact ih.2.1
      · simp only [collapseAux, hc, if_pos]
        exact ih.2.2
    · refine ⟨?_, ?_, ?_⟩
      · simp only [collapseAux, hc, if_false]
        exact wsSingle_cons_nonws (Bool.of_not_eq_true hc) ih.1
      · simp only [collapseAux, hc, if_false]
        exact wsSingle_cons_nonws (Bool.of_not_eq_true hc) ih.1
      · simp only [collapseAux, hc, if_false, headOk]
        simp [Bool.of_not_eq_true hc]

theorem stage1_headOk (l : List Char) :
    headOk (collapseSpaces (replaceNewlines (pyStripL l))) = true :=
  headOk_collapseAux (headOk_replaceNewlines (headOk_pyStripL l))

theorem stage1_lastOk (l : List Char) :
    lastOk (collapseSpaces (replaceNewlines (pyStripL l))) = true :=
  lastOk_collapseAux false (lastOk_replaceNewlines (lastOk_pyStripL l))

theorem stage1_wsSingle (l : List Char) :
    wsSingle (collapseSpaces (replaceNewlines (pyStripL l))) = true :=
  (wsSingle_collapseAux (replaceNewlines (pyStripL l))).1

theorem mem_collapseAux {c : Char} {l : List Char} :
    ∀ b, c ∈ collapseAux b l → c = ' ' ∨ c ∈ l := by
  induction l with
  | nil => intro b h; simp [collapseAux] at h
  | cons d r ih =>
    intro b h
    by_cases hd : pyIsSpace d
    · simp only [collapseAux, hd, if_pos] at h
      by_cases hb : b
      · subst hb
        simp only [if_pos] at h
        rcases ih true h with hh | hh
        · exact Or.inl hh
        · exact Or.inr (List.mem_cons_of_mem d hh)
      · simp only [Bool.not_eq_true] at hb
        subst hb
        simp only [Bool.false_eq_true, if_false, List.mem_cons] at h
        rcases h with rfl | h
        · exact Or.inl rfl
        · rcases ih true h with hh | hh
          · exact Or.inl hh
          · exact Or.inr (List.mem_cons_of_mem d hh)
    · have hdf : pyIsSpace d = false := Bool.of_not_eq_true hd
      simp only [collapseAux, hdf, Bool.false_eq_true, if_false, List.mem_cons] at h
      rcases h with rfl | h
      · exact Or.inr (List.mem_cons_self c r)
      · rcases ih false h with hh | hh
        · exact Or.inl hh
        · exact Or.inr (List.mem_cons_of_mem d hh)

theorem mem_replaceNewlines {c : Char} {l : List Char} (h : c ∈ replaceNewlines l) :
    c = ' ' ∨ c ∈ l := by
  rcases List.mem_map.mp h with ⟨a, ha, haeq⟩
  by_cases hn : a = '\n'
  · rw [hn] at haeq
    simp at haeq
    exact Or.inl haeq.symm
  · rw [if_neg hn] at haeq
    rw [← haeq]
    exact Or.inr ha

theorem stage1_mem {c : Char} {l : List Char}
    (h : c ∈ collapseSpaces (replaceNewlines (pyStripL l)))
    (hws : pyIsSpace c = false) : c ∈ l := by
  have hns : ¬c = ' ' := fun hh => by rw [hh] at hws; exact absurd hws (by decide)
  rcases mem_collapseAux false h with hh | hh
  · exact absurd hh hns
  rcases mem_replaceNewlines hh with hh2 | hh2
  · exact absurd hh2 hns
  exact strip2_mem pyIsSpace hh2


/-! ### Key normalization: shape preservation through accent stripping -/

theorem wsSingle_tail {c : Char} {r : List Char} (h : wsSingle (c :: r) = true) :
    wsSingle r = true := by
  cases r with
  | nil => rfl
  | cons d s =>
    simp only [wsSingle, Bool.and_eq_true] at h
    exact h.2

theorem wsSingle_head_space {c : Char} {r : List Char} (h : wsSingle (c :: r) = true)
    (hc : pyIsSpace c = true) : c = ' ' := by
  cases r with
  | nil =>
    simp only [wsSingle, hc, Bool.not_true, Bool.false_or, beq_iff_eq] at h
    exact h
  | cons d s =>
    simp only [wsSingle, hc, Bool.not_true, Bool.false_or, Bool.and_eq_true,
      beq_iff_eq] at h
    exact h.1.1

theorem wsSingle_pair {c d : Char} {s : List Char} (h : wsSingle (c :: d :: s) = true)
    (hc : pyIsSpace c = true) : pyIsSpace d = false := by
  simp only [wsSingle, hc, Bool.not_true, Bool.false_or, Bool.and_eq_true,
    Bool.not_eq_true', beq_iff_eq] at h
  exact h.1.2

theorem wsSingle_ws_eq_space : ∀ (l : List Char), wsSingle l = true →
    ∀ c ∈ l, pyIsSpace c = true → c = ' ' := by
  intro l
  induction l with
  | nil => intro _ c hc; simp at hc
  | cons c r ih =>
    intro h x hx hxs
    rcases List.mem_cons.mp hx with rfl | hx'
    · exact wsSingle_head_space h hxs
    · exact ih (wsSingle_tail h) x hx' hxs

theorem wsSingle_append_nonws {a b : List Char} (ha : ∀ e ∈ a, pyIsSpace e = false)
    (hb : wsSingle b = true) : wsSingle (a ++ b) = true := by
  induction a with
  | nil => simpa
  | cons e a2 ih =>
    rw [List.cons_append]
    exact wsSingle_cons_nonws (ha e (List.mem_cons_self e a2))
      (ih (fun x hx => ha x (List.mem_cons_of_mem e hx)))

theorem lastOk_of_all_nonws {y : List Char} (h : ∀ e ∈ y, pyIsSpace e = false) :
    lastOk y = true := by
  unfold lastOk
  apply headOk_of_head?
  intro c hc
  apply h
  have hm : c ∈ y.reverse := List.mem_of_mem_head? hc
  exact List.mem_reverse.mp hm

theorem lastOk_append_right {a b : List Char} (hb : b ≠ []) :
    lastOk (a ++ b) = lastOk b := by
  unfold lastOk
  rw [List.reverse_append]
  rw [headOk_append_left (by simpa using hb)]

theorem flat_headOk {w : List Char} (hh : headOk w = true)
    (hcond : ∀ c ∈ w, pyIsSpace c = false → expandChar c ≠ []) :
    headOk (w.flatMap expandChar) = true := by
  cases w with
  | nil => rfl
  | cons c r =>
    have hc : pyIsSpace c = false := by simpa [headOk] using hh
    have hne := hcond c (List.mem_cons_self c r) hc
    rw [List.flatMap_cons]
    cases he : expandChar c with
    | nil => exact absurd he hne
    | cons e es =>
      rw [List.cons_append]
      have hws : pyIsSpace e = pyIsSpace c :=
        expandChar_ws c e (by rw [he]; exact List.mem_cons_self e es)
      simp [headOk, hws, hc]

theorem flat_ne_nil : ∀ (w : List Char), lastOk w = true → w ≠ [] →
    (∀ c ∈ w, pyIsSpace c = false → expandChar c ≠ []) →
    w.flatMap expandChar ≠ [] := by
  intro w
  induction w with
  | nil => intro _ h _; exact absurd rfl h
  | cons c r ih =>
    intro hl _ hcond
    rw [List.flatMap_cons]
    by_cases hre : r = []
    · subst hre
      have hc : pyIsSpace c = false := by
        rw [lastOk_cons] at hl
        simpa using hl
      have hne := hcond c (List.mem_cons_self c []) hc
      intro hcontra
      rcases List.append_eq_nil.mp hcontra with ⟨h1, _⟩
      exact hne h1
    · have hlr : lastOk r = true := by
        rw [lastOk_cons, if_neg (by simpa [List.isEmpty_iff] using hre)] at hl
        exact hl
      have hcondr := fun x hx => hcond x (List.mem_cons_of_mem c hx)
      have hbne := ih hlr hre hcondr
      intro hcontra
      rcases List.append_eq_nil.mp hcontra with ⟨_, h2⟩
      exact hbne h2

theorem flat_lastOk : ∀ (w : List Char), lastOk w = true →
    (∀ c ∈ w, pyIsSpace c = false → expandChar c ≠ []) →
    lastOk (w.flatMap expandChar) = true := by
  intro w
  induction w with
  | nil => intro _ _; rfl
  | cons c r ih =>
    intro hl hcond
    rw [List.flatMap_cons]
    by_cases hre : r = []
    · subst hre
      have hc : pyIsSpace c = false := by
        rw [lastOk_cons] at hl
        simpa using hl
      simp only [List.flatMap_nil, List.append_nil]
      apply lastOk_of_all_nonws
      intro e he
      rw [expandChar_ws c e he]
      exact hc
    · have hlr : lastOk r = true := by
        rw [lastOk_cons, if_neg (by simpa [List.isEmpty_iff] using hre)] at hl
        exact hl
      have hcondr := fun x hx => hcond x (List.mem_cons_of_mem c hx)
      have hbne := flat_ne_nil r hlr hre hcondr
      rw [lastOk_append_right hbne]
      exact ih hlr hcondr

theorem flat_wsSingle : ∀ (w : List Char), wsSingle w = true →
    (∀ c ∈ w, pyIsSpace c = false → expandChar c ≠ []) →
    wsSingle (w.flatMap expandChar) = true := by
  intro w
  induction w with
  | nil => intro _ _; rfl
  | cons c r ih =>
    intro hw hcond
    have hcondr := fun x hx => hcond x (List.mem_cons_of_mem c hx)
    have hwr := wsSingle_tail hw
    rw [List.flatMap_cons]
    by_cases hc : pyIsSpace c
    · have hsp : c = ' ' := wsSingle_head_space hw hc
      subst hsp
      have hexp : expandChar ' ' = [' '] := by decide
      rw [hexp]
      cases r with
      | nil =>
        rw [List.flatMap_nil, List.append_nil]
        decide
      | cons d r2 =>
        have hd : pyIsSpace d = false := wsSingle_pair hw (by decide)
        rw [List.singleton_append]
        apply wsSingle_space_cons
        · exact flat_headOk (by simp [headOk, hd]) hcondr
        · exact ih hwr hcondr
    · have hcf : pyIsSpace c = false := Bool.of_not_eq_true hc
      apply wsSingle_append_nonws
      · intro e he
        rw [expandChar_ws c e he]
        exact hcf
      · exact ih hwr hcondr

theorem dropWhile_of_headOk {l : List Char} (h : headOk l = true) :
    l.dropWhile pyIsSpace = l := by
  cases l with
  | nil => rfl
  | cons c r =>
    have hc : pyIsSpace c = false := by simpa [headOk] using h
    rw [List.dropWhile_cons, hc]
    simp

theorem pyStripL_of_shape {m : List Char} (hh : headOk m = true) (hl : lastOk m = true) :
    pyStripL m = m := by
  unfold pyStripL
  rw [dropWhile_of_headOk hh]
  rw [dropWhile_of_headOk hl]
  exact List.reverse_reverse m

theorem replaceNewlines_of_no_newline : ∀ (m : List Char), (∀ c ∈ m, ¬c = '\n') →
    replaceNewlines m = m := by
  intro m
  induction m with
  | nil => intro _; rfl
  | cons c r ih =>
    intro h
    unfold replaceNewlines
    rw [List.map_cons, if_neg (h c (List.mem_cons_self c r))]
    have := ih (fun x hx => h x (List.mem_cons_of_mem c hx))
    unfold replaceNewlines at this
    rw [this]

theorem replaceNewlines_of_wsSingle {m : List Char} (h : wsSingle m = true) :
    replaceNewlines m = m := by
  apply replaceNewlines_of_no_newline
  intro c hc hn
  subst hn
  have := wsSingle_ws_eq_space m h '\n' hc (by decide)
  exact absurd this (by decide)

theorem collapse_of_wsSingle : ∀ (m : List Char), wsSingle m = true →
    collapseAux false m = m ∧ (headOk m = true → collapseAux true m = m) := by
  intro m
  induction m with
  | nil => intro _; exact ⟨rfl, fun _ => rfl⟩
  | cons c r ih =>
    intro hm
    have hmr := wsSingle_tail hm
    by_cases hc : pyIsSpace c
    · have hsp : c = ' ' := wsSingle_head_space hm hc
      constructor
      · simp only [collapseAux, hc, if_pos, Bool.false_eq_true, if_false]
        rw [hsp]
        congr 1
        cases r with
        | nil => rfl
        | cons d r2 =>
          have hd : pyIsSpace d = false := by
            apply wsSingle_pair (d := d) (s := r2) _ hc
            exact hm
          exact (ih hmr).2 (by simp [headOk, hd])
      · intro hhead
        exfalso
        rw [headOk, hc] at hhead
        exact absurd hhead (by decide)
    · have hcf : pyIsSpace c = false := Bool.of_not_eq_true hc
      have h1 := (ih hmr).1
      constructor
      · simp only [collapseAux, hcf, Bool.false_eq_true, if_false]
        rw [h1]
      · intro _
        simp only [collapseAux, hcf, Bool.false_eq_true, if_false]
        rw [h1]


/-! ### C3: idempotence of key normalization -/

/-- C3 counterexample: a bare combining acute accent after a space.  The
accent-stripping step deletes it, leaving a trailing space that only the
second normalization pass strips, so `normalize_key` is not idempotent. -/
theorem normalize_key_not_idempotent_on_bare_combining :
    normalize_key (normalize_key ⟨['a', ' ', '\u0301']⟩)
      ≠ normalize_key ⟨['a', ' ', '\u0301']⟩ := by decide

/-- Core model-level lemma: within the embedding, `normalize_key` is
idempotent on strings free of the modelled combining block, because every
remaining character then contributes at least one base character, so accent
stripping cannot create boundary or doubled whitespace.  The claim-level
theorem `normalize_key_idem_on_repertoire` restricts the hypothesis further
to `exactRepertoire`, where the embedding agrees with `unicodedata`. -/
theorem nk_idem_of_no_combining (s : String)
    (hs : ∀ c ∈ s.data, combining c = false) :
    normalize_key (normalize_key s) = normalize_key s := by
  have hcond : ∀ c ∈ collapseSpaces (replaceNewlines (pyStripL s.data)),
      pyIsSpace c = false → expandChar c ≠ [] := by
    intro c hc hws
    exact expandChar_nonempty (hs c (stage1_mem hc hws))
  have hMflat : stripAccentsUpperL (collapseSpaces (replaceNewlines (pyStripL s.data)))
      = (collapseSpaces (replaceNewlines (pyStripL s.data))).flatMap expandChar :=
    sup_eq_flatMap _
  have hMh : headOk (stripAccentsUpperL (collapseSpaces (replaceNewlines
      (pyStripL s.data)))) = true := by
    rw [hMflat]
    exact flat_headOk (stage1_headOk s.data) hcond
  have hMl : lastOk (stripAccentsUpperL (collapseSpaces (replaceNewlines
      (pyStripL s.data)))) = true := by
    rw [hMflat]
    exact flat_lastOk _ (stage1_lastOk s.data) hcond
  have hMw : wsSingle (stripAccentsUpperL (collapseSpaces (replaceNewlines
      (pyStripL s.data)))) = true := by
    rw [hMflat]
    exact flat_wsSingle _ (stage1_wsSingle s.data) hcond
  have hlist : stripAccentsUpperL (collapseSpaces (replaceNewlines (pyStripL
      (stripAccentsUpperL (collapseSpaces (replaceNewlines (pyStripL s.data)))))))
      = stripAccentsUpperL (collapseSpaces (replaceNewlines (pyStripL s.data))) := by
    rw [pyStripL_of_shape hMh hMl, replaceNewlines_of_wsSingle hMw,
      show collapseSpaces (stripAccentsUpperL (collapseSpaces (replaceNewlines
        (pyStripL s.data)))) = stripAccentsUpperL (collapseSpaces (replaceNewlines
        (pyStripL s.data))) from (collapse_of_wsSingle _ hMw).1]
    exact sup_idem _
  exact congrArg String.mk hlist

theorem nfkdTable_key_not_combining : ∀ q ∈ nfkdTable, combining q.1 = false := by
  decide

/-- C3 (amended).  `normalize_key` is idempotent on every string drawn from
the repertoire the embedding models exactly - ASCII plus the precomposed
accented letters the placeholder pattern admits.  Outside that repertoire a
mark that accent stripping deletes next to whitespace (a standalone
combining mark such as U+0301 or U+20D0, or a character such as U+00B4
whose NFKD decomposition introduces a space) leaves boundary or doubled
whitespace that only a second pass removes, as the counterexample shows. -/
theorem normalize_key_idem_on_repertoire (s : String)
    (hs : ∀ c ∈ s.data, exactRepertoire c = true) :
    normalize_key (normalize_key s) = normalize_key s := by
  apply nk_idem_of_no_combining
  intro c hc
  have hor := hs c hc
  unfold exactRepertoire at hor
  rw [Bool.or_eq_true] at hor
  rcases hor with h | h
  · have h1 : c.toNat ≤ 0x7F := of_decide_eq_true h
    unfold combining
    apply decide_eq_false
    rintro ⟨h2, _⟩
    omega
  · rcases List.any_eq_true.mp h with ⟨q, hq, hqc⟩
    have hq1 : q.1 = c := by simpa using hqc
    rw [← hq1]
    exact nfkdTable_key_not_combining q hq

/-- Witness for C3 (amended) on a concrete accented repertoire string. -/
theorem normalize_key_idem_on_repertoire_witness :
    normalize_key (normalize_key "Café") = normalize_key "Café" :=
  normalize_key_idem_on_repertoire "Café" (by decide)

/-! ### C4: accent and case insensitivity -/

/-- Two characters differ only by accents or letter case: they are both
whitespace, or both non-whitespace with the same accent-stripped uppercase
form. -/
def equivC (c d : Char) : Bool :=
  if pyIsSpace c then pyIsSpace d
  else !pyIsSpace d && decide (expandChar c = expandChar d)

/-- Pointwise lifting of `equivC` to strings of the same length. -/
def equivL : List Char → List Char → Bool
  | [], [] => true
  | c :: r, d :: s => equivC c d && equivL r s
  | _, _ => false

theorem equivC_ws {c d : Char} (h : equivC c d = true) : pyIsSpace c = pyIsSpace d := by
  unfold equivC at h
  by_cases hc : pyIsSpace c
  · rw [if_pos hc] at h
    rw [hc, h]
  · rw [if_neg hc] at h
    simp only [Bool.and_eq_true, Bool.not_eq_true'] at h
    rw [Bool.of_not_eq_true hc, h.1]

theorem equivC_expand {c d : Char} (h : equivC c d = true) (hc : pyIsSpace c = false) :
    expandChar c = expandChar d := by
  unfold equivC at h
  rw [hc] at h
  simp only [Bool.false_eq_true, if_false, Bool.and_eq_true, decide_eq_true_eq] at h
  exact h.2

theorem equivL_dropWhile : ∀ (a b : List Char), equivL a b = true →
    equivL (a.dropWhile pyIsSpace) (b.dropWhile pyIsSpace) = true := by
  intro a
  induction a with
  | nil =>
    intro b h
    cases b with
    | nil => exact h
    | cons d s => simp [equivL] at h
  | cons c r ih =>
    intro b h
    cases b with
    | nil => simp [equivL] at h
    | cons d s =>
      simp only [equivL, Bool.and_eq_true] at h
      have hws := equivC_ws h.1
      by_cases hc : pyIsSpace c
      · have hd : pyIsSpace d = true := by rw [← hws]; exact hc
        rw [List.dropWhile_cons, List.dropWhile_cons, hc, hd]
        simp only [if_pos]
        exact ih s h.2
      · have hcf : pyIsSpace c = false := Bool.of_not_eq_true hc
        have hd : pyIsSpace d = false := by rw [← hws]; exact hcf
        rw [List.dropWhile_cons, List.dropWhile_cons, hcf, hd]
        simp only [Bool.false_eq_true, if_false, equivL, Bool.and_eq_true]
        exact ⟨h.1, h.2⟩

theorem equivL_append : ∀ (a b a2 b2 : List Char), equivL a b = true →
    equivL a2 b2 = true → equivL (a ++ a2) (b ++ b2) = true := by
  intro a
  induction a with
  | nil =>
    intro b a2 b2 h h2
    cases b with
    | nil => simpa using h2
    | cons d s => simp [equivL] at h
  | cons c r ih =>
    intro b a2 b2 h h2
    cases b with
    | nil => simp [equivL] at h
    | cons d s =>
      simp only [equivL, Bool.and_eq_true] at h
      rw [List.cons_append, List.cons_append]
      simp only [equivL, Bool.and_eq_true]
      exact ⟨h.1, ih s a2 b2 h.2 h2⟩

theorem equivL_reverse : ∀ (a b : List Char), equivL a b = true →
    equivL a.reverse b.reverse = true := by
  intro a
  induction a with
  | nil =>
    intro b h
    cases b with
    | nil => exact h
    | cons d s => simp [equivL] at h
  | cons c r ih =>
    intro b h
    cases b with
    | nil => simp [equivL] at h
    | cons d s =>
      simp only [equivL, Bool.and_eq_true] at h
      rw [List.reverse_cons, List.reverse_cons]
      apply equivL_append _ _ _ _ (ih s h.2)
      simp only [equivL, Bool.and_eq_true]
      exact ⟨h.1, trivial⟩

theorem equivL_pyStripL {a b : List Char} (h : equivL a b = true) :
    equivL (pyStripL a) (pyStripL b) = true := by
  unfold pyStripL
  exact equivL_reverse _ _ (equivL_dropWhile _ _ (equivL_reverse _ _
    (equivL_dropWhile _ _ h)))

theorem equivC_rep {c d : Char} (h : equivC c d = true) :
    equivC (if c = '\n' then ' ' else c) (if d = '\n' then ' ' else d) = true := by
  have hws := equivC_ws h
  by_cases hc : pyIsSpace c
  · have hd : pyIsSpace d = true := by rw [← hws]; exact hc
    have h1 : pyIsSpace (if c = '\n' then ' ' else c) = true := by
      by_cases hcn : c = '\n'
      · rw [if_pos hcn]; decide
      · rw [if_neg hcn]; exact hc
    have h2 : pyIsSpace (if d = '\n' then ' ' else d) = true := by
      by_cases hdn : d = '\n'
      · rw [if_pos hdn]; decide
      · rw [if_neg hdn]; exact hd
    unfold equivC
    rw [if_pos h1]
    exact h2
  · have hcf : pyIsSpace c = false := Bool.of_not_eq_true hc
    have hd : pyIsSpace d = false := by rw [← hws]; exact hcf
    have hcn : ¬c = '\n' := fun hh => by rw [hh] at hcf; exact absurd hcf (by decide)
    have hdn : ¬d = '\n' := fun hh => by rw [hh] at hd; exact absurd hd (by decide)
    rw [if_neg hcn, if_neg hdn]
    exact h

theorem equivL_rep : ∀ (a b : List Char), equivL a b = true →
    equivL (replaceNewlines a) (replaceNewlines b) = true := by
  intro a
  induction a with
  | nil =>
    intro b h
    cases b with
    | nil => exact h
    | cons d s => simp [equivL] at h
  | cons c r ih =>
    intro b h
    cases b with
    | nil => simp [equivL] at h
    | cons d s =>
      simp only [equivL, Bool.and_eq_true] at h
      unfold replaceNewlines
      rw [List.map_cons, List.map_cons]
      simp only [equivL, Bool.and_eq_true]
      refine ⟨equivC_rep h.1, ?_⟩
      have := ih s h.2
      unfold replaceNewlines at this
      exact this

theorem equivL_collapseAux : ∀ (a b : List Char) (fl : Bool), equivL a b = true →
    equivL (collapseAux fl a) (collapseAux fl b) = true := by
  intro a
  induction a with
  | nil =>
    intro b fl h
    cases b with
    | nil => rfl
    | cons d s => simp [equivL] at h
  | cons c r ih =>
    intro b fl h
    cases b with
    | nil => simp [equivL] at h
    | cons d s =>
      simp only [equivL, Bool.and_eq_true] at h
      have hws := equivC_ws h.1
      by_cases hc : pyIsSpace c
      · have hd : pyIsSpace d = true := by rw [← hws]; exact hc
        simp only [collapseAux, hc, hd, if_pos]
        by_cases hfl : fl
        · subst hfl
          simp only [if_pos]
          exact ih s true h.2
        · simp only [Bool.not_eq_true] at hfl
          subst hfl
          simp only [Bool.false_eq_true, if_false]
          simp only [equivL, Bool.and_eq_true]
          exact ⟨by decide, ih s true h.2⟩
      · have hcf : pyIsSpace c = false := Bool.of_not_eq_true hc
        have hd : pyIsSpace d = false := by rw [← hws]; exact hcf
        simp only [collapseAux, hcf, hd, Bool.false_eq_true, if_false]
        simp only [equivL, Bool.and_eq_true]
        exact ⟨h.1, ih s false h.2⟩

theorem flatMap_expand_of_equiv : ∀ (a b : List Char), equivL a b = true →
    (∀ c ∈ a, pyIsSpace c = true → c = ' ') → (∀ d ∈ b, pyIsSpace d = true → d = ' ') →
    a.flatMap expandChar = b.flatMap expandChar := by
  intro a
  induction a with
  | nil =>
    intro b h _ _
    cases b with
    | nil => rfl
    | cons d s => simp [equivL] at h
  | cons c r ih =>
    intro b h ha hb
    cases b with
    | nil => simp [equivL] at h
    | cons d s =>
      simp only [equivL, Bool.and_eq_true] at h
      have hws := equivC_ws h.1
      rw [List.flatMap_cons, List.flatMap_cons]
      have htail := ih s h.2 (fun x hx => ha x (List.mem_cons_of_mem c hx))
        (fun x hx => hb x (List.mem_cons_of_mem d hx))
      by_cases hc : pyIsSpace c
      · have hd : pyIsSpace d = true := by rw [← hws]; exact hc
        rw [ha c (List.mem_cons_self c r) hc, hb d (List.mem_cons_self d s) hd, htail]
      · rw [equivC_expand h.1 (Bool.of_not_eq_true hc), htail]

/-- C4.  Key normalization is insensitive to accents and case: strings that
differ only pointwise by accents or letter case (`equivL`) normalize to the
same key; in particular `normalize_key "Café" = normalize_key "CAFE"`. -/
theorem normalize_key_accent_case_insensitive :
    (∀ s t : String, equivL s.data t.data = true → normalize_key s = normalize_key t)
    ∧ normalize_key "Café" = normalize_key "CAFE" := by
  constructor
  · intro s t h
    have hlist : stripAccentsUpperL (collapseSpaces (replaceNewlines (pyStripL s.data)))
        = stripAccentsUpperL (collapseSpaces (replaceNewlines (pyStripL t.data))) := by
      rw [sup_eq_flatMap, sup_eq_flatMap]
      apply flatMap_expand_of_equiv
      · exact equivL_collapseAux _ _ false (equivL_rep _ _ (equivL_pyStripL h))
      · exact wsSingle_ws_eq_space _ (stage1_wsSingle s.data)
      · exact wsSingle_ws_eq_space _ (stage1_wsSingle t.data)
    exact congrArg String.mk hlist
  · decide

/-- Witness for C4 at the example pair of the spec. -/
theorem normalize_key_accent_case_insensitive_witness :
    normalize_key "Café" = normalize_key "CAFE" :=
  normalize_key_accent_case_insensitive.1 "Café" "CAFE" (by decide)


/-! ### Remaining witnesses -/

/-- Witness for C5 (amended) at a concrete name with a reserved character. -/
theorem sanitize_filename_safe_chars_bounded_witness :
    forbiddenFilenameChar 'a' = false ∧ (sanitize_filename "a<b").data.length ≤ 200 :=
  ⟨(sanitize_filename_safe_chars_bounded.1 "a<b").1 'a' (by decide),
   (sanitize_filename_safe_chars_bounded.1 "a<b").2⟩

/-- Witness for C6 at a concrete one-part template. -/
theorem extract_placeholders_full_spec_witness :
    dictGet? (extract_placeholders_full
        [("word/document.xml", "x\x7b\x7b NOMBRE \x7d\x7dy")]).norm_to_original "NOMBRE"
      = some "NOMBRE" :=
  (extract_placeholders_full_spec
      [("word/document.xml", "x\x7b\x7b NOMBRE \x7d\x7dy")] "NOMBRE").2.trans (by decide)

/-- Witness for C10 (amended) at a concrete short name with an inner dot. -/
theorem sanitize_filename_nonempty_no_leading_dot_witness :
    (sanitize_filename "ab.cd").data ≠ []
    ∧ (sanitize_filename "ab.cd").data.head? ≠ some '.'
    ∧ (sanitize_filename "ab.cd").data.getLast? ≠ some '.' :=
  ⟨(sanitize_filename_nonempty_no_leading_dot.1 "ab.cd").1,
   (sanitize_filename_nonempty_no_leading_dot.1 "ab.cd").2.1,
   (sanitize_filename_nonempty_no_leading_dot.1 "ab.cd").2.2 (by decide)⟩

end Certificados
